import Mathlib

/-!
Verification of the adaptive frequency-selection core of `freqselect.py`
(`get_new_freq`, lines 516-629, and the merge / reconstruction steps of
`design_freq_range`, lines 749-790).

Modelling conventions of the shallow embedding:
* numpy float arrays are `List ℝ`; complex field arrays are `List ℂ`;
  floating-point arithmetic is modelled as exact real arithmetic.
* `l.getD i 0` models `a[i]`; in the embedded code every access is guarded
  exactly as in the source, so the default is never observable there.
* Real division by zero is `0` in Lean while numpy emits `inf`/`nan`.  The
  only place this matters is the degenerate all-zero-field input, where
  numpy's `nan > rtol` is `False` and Lean's `0 > rtol` is `False` as well,
  so the observable behaviour (the returned proposal list) agrees.
-/

namespace FreqSelect

/-- Anchor frequency `1e-100` Hz (source line 577/580). -/
noncomputable def fLow : ℝ := ((10 : ℝ) ^ (100 : ℕ))⁻¹

/-- Anchor frequency `1e4` Hz (source line 577). -/
noncomputable def f4 : ℝ := (10 : ℝ) ^ (4 : ℕ)

/-- Anchor frequency `1e100` Hz (source line 577/580). -/
noncomputable def fHigh : ℝ := (10 : ℝ) ^ (100 : ℕ)

/-- `np.sign` for reals: `-1`, `0` or `1`. -/
noncomputable def npsign (x : ℝ) : ℝ :=
  if x < 0 then -1 else if 0 < x then 1 else 0

/-- `np.diff` of a real list: consecutive differences (used on `lfreq`,
source line 606). -/
noncomputable def np_diff (l : List ℝ) : List ℝ :=
  (List.range (l.length - 1)).map (fun i => l.getD (i + 1) 0 - l.getD i 0)

/-- Python `max(freq)` on a numpy array of (positive) frequencies
(source line 576).  The `0` seed of the fold is inert for the nonempty
positive inputs the source feeds it. -/
noncomputable def maxFreq (freq : List ℝ) : ℝ := freq.foldr max 0

/-- `max(np.abs(field))`, the largest complex magnitude over the current
samples (source line 597).  The `0` seed of the fold is inert because
magnitudes are nonnegative. -/
noncomputable def maxAbs (field : List ℂ) : ℝ :=
  (field.map Complex.abs).foldr max 0

/-! ### scipy.interpolate.pchip_interpolate

Shape-preserving cubic Hermite interpolation, embedded from scipy's
`PchipInterpolator._find_derivatives` / `_edge_case` and cubic Hermite
segment evaluation. -/

/-- Knot spacing `hk[k] = x[k+1] - x[k]`. -/
noncomputable def hAt (x : List ℝ) (k : ℕ) : ℝ :=
  x.getD (k + 1) 0 - x.getD k 0

/-- Secant slope `mk[k] = (y[k+1] - y[k]) / (x[k+1] - x[k])`. -/
noncomputable def slopeAt (x y : List ℝ) (k : ℕ) : ℝ :=
  (y.getD (k + 1) 0 - y.getD k 0) / (x.getD (k + 1) 0 - x.getD k 0)

/-- scipy `PchipInterpolator._edge_case`: one-sided three-point estimate of
the endpoint derivative, limited to preserve shape. -/
noncomputable def edge_case (h0 h1 m0 m1 : ℝ) : ℝ :=
  let d := ((2 * h0 + h1) * m0 - h0 * m1) / (h0 + h1)
  if npsign d ≠ npsign m0 then 0
  else if npsign m0 ≠ npsign m1 ∧ 3 * |m0| < |d| then 3 * m0
  else d

/-- scipy `PchipInterpolator._find_derivatives`, at one index `k`:
weighted harmonic mean of the neighbouring secant slopes, zero whenever the
slopes change sign or vanish; the `_edge_case` formula at the endpoints and
the single secant slope when there are only two data points. -/
noncomputable def pchip_deriv (x y : List ℝ) (k : ℕ) : ℝ :=
  let n := y.length
  if n = 2 then slopeAt x y 0
  else if k = 0 then edge_case (hAt x 0) (hAt x 1) (slopeAt x y 0) (slopeAt x y 1)
  else if k = n - 1 then
    edge_case (hAt x (n - 2)) (hAt x (n - 3)) (slopeAt x y (n - 2)) (slopeAt x y (n - 3))
  else
    let mkm := slopeAt x y (k - 1)
    let mkk := slopeAt x y k
    if npsign mkm ≠ npsign mkk ∨ mkm = 0 ∨ mkk = 0 then 0
    else
      let w1 := 2 * hAt x k + hAt x (k - 1)
      let w2 := hAt x k + 2 * hAt x (k - 1)
      (w1 + w2) / (w1 / mkm + w2 / mkk)

/-- Index of the segment `[x[k], x[k+1]]` that contains the query point:
`searchsorted`-style count of knots `≤ q`, clamped to the valid segments. -/
noncomputable def search_index (x : List ℝ) (q : ℝ) : ℕ :=
  min (x.length - 2) (x.countP (fun xi => decide (xi ≤ q)) - 1)

/-- `scipy.interpolate.pchip_interpolate(x, y, q)` at a single query point:
cubic Hermite evaluation on the containing segment with the pchip
derivatives. -/
noncomputable def pchip_interpolate (x y : List ℝ) (q : ℝ) : ℝ :=
  let k := search_index x q
  let h := x.getD (k + 1) 0 - x.getD k 0
  let t := (q - x.getD k 0) / h
  y.getD k 0 * (2 * t ^ 3 - 3 * t ^ 2 + 1)
    + h * pchip_deriv x y k * (t ^ 3 - 2 * t ^ 2 + t)
    + y.getD (k + 1) 0 * (-2 * t ^ 3 + 3 * t ^ 2)
    + h * pchip_deriv x y (k + 1) * (t ^ 3 - t ^ 2)

/-! ### The leave-one-out error estimator (source lines 568-597) -/

/-- Temporary control frequencies for the leave-one-out evaluation of sample
`i` (source lines 576-580): sample `i` removed, zero-field anchors appended
at `1e-100` and `1e100` Hz, and additionally at `1e4` Hz when the largest
sample frequency is below `1e4` Hz.  `freq[np.arange(freq.size) != i]` is
the removal of index `i`, i.e. `eraseIdx`. -/
noncomputable def tmp_f (freq : List ℝ) (i : ℕ) : List ℝ :=
  if maxFreq freq < f4 then fLow :: (freq.eraseIdx i ++ [f4, fHigh])
  else fLow :: (freq.eraseIdx i ++ [fHigh])

/-- Temporary control fields matching `tmp_f` (source lines 578/581):
sample `i` removed and zero fields at the anchor positions. -/
noncomputable def tmp_s (freq : List ℝ) (field : List ℂ) (i : ℕ) : List ℂ :=
  if maxFreq freq < f4 then 0 :: (field.eraseIdx i ++ [0, 0])
  else 0 :: (field.eraseIdx i ++ [0])

/-- `i_field` (source lines 569-584): for every sample index, the pchip
interpolation of the imaginary parts of the remaining samples (plus the
zero anchors) at the left-out frequency, multiplied by `1j`. -/
noncomputable def i_field (freq : List ℝ) (field : List ℂ) : List ℂ :=
  (List.range freq.length).map (fun i =>
    Complex.I *
      ((pchip_interpolate (tmp_f freq i) ((tmp_s freq field i).map Complex.im)
        (freq.getD i 0) : ℝ) : ℂ))

/-- `error = np.abs((i_field.imag - field.imag)/max(np.abs(field)))`
(source line 597): elementwise over the two arrays of equal length. -/
noncomputable def error_vec (iField field : List ℂ) : List ℝ :=
  (iField.zip field).map (fun p => |(p.1.im - p.2.im) / maxAbs field|)

/-- Modelled from the spec: the alternative error normalisation stated in
spec section 4.2 step 4, which divides by the largest absolute imaginary
part of the field instead of the largest complex magnitude.  Used only to
compare the spec's wording with the source's `error_vec`. -/
noncomputable def maxAbsIm (field : List ℂ) : ℝ :=
  (field.map (fun z => |z.im|)).foldr max 0

/-- Modelled from the spec: per-sample relative error as worded in spec
section 4.2 step 4 (`|estimate.imag - actual.imag| / max |actual.imag|`). -/
noncomputable def error_vec_spec (iField field : List ℂ) : List ℝ :=
  (iField.zip field).map (fun p => |p.1.im - p.2.im| / maxAbsIm field)

/-! ### The refinement rule (source lines 599-620) -/

/-- The decision part of `get_new_freq` (source lines 599-620), as a
function of the frequencies, the per-sample error vector and the tolerance:
failing indices are collected in ascending order; if there are none the
empty proposal is returned, otherwise a single new frequency is produced
half a decade below the lowest frequency, half a decade above the highest
frequency, or at the log10 midpoint of the first failing sample and its
next neighbour, exactly as the three source branches. -/
noncomputable def get_new_freq_from_error (freq error : List ℝ) (rtol : ℝ) :
    List ℝ :=
  let ierr := (List.range freq.length).filter
    (fun i => decide (rtol < error.getD i 0))
  if 0 < ierr.length then
    let lfreq := freq.map (Real.logb 10)
    let diff := np_diff lfreq
    let new_lfreq :=
      if rtol < error.getD 0 0 then
        lfreq.getD (ierr.headD 0) 0 - 0.5
      else if rtol < error.getD (error.length - 1) 0 ∧ ierr.length = 1 then
        lfreq.getD (ierr.headD 0) 0 + 0.5
      else
        lfreq.getD (ierr.headD 0) 0 + diff.getD (ierr.headD 0) 0 / 2
    [(10 : ℝ) ^ new_lfreq]
  else []

/-- `get_new_freq(freq, field, rtol)` (source lines 516-629, without the
purely diagnostic `req_freq` / `full_output` extras, which do not change
the returned proposal): leave-one-out error estimation followed by the
refinement rule. -/
noncomputable def get_new_freq (freq : List ℝ) (field : List ℂ) (rtol : ℝ) :
    List ℝ :=
  get_new_freq_from_error freq (error_vec (i_field freq field) field) rtol

/-! ### The merge step of the adaptive loop (source lines 760-761)

`freq, ai = np.unique(np.r_[freq, new_freq], return_index=True)` followed by
`fEM = np.r_[fEM, new_fEM][ai]`: the merged frequency list is the sorted
deduplication of the concatenation, and every merged frequency carries the
field value of its first occurrence in the concatenated arrays.  Stated
generically over a linear order so that it covers the real instance. -/

/-- Merge newly evaluated frequencies and fields into the running arrays,
exactly as `np.unique(..., return_index=True)` plus fancy indexing does:
sorted unique values, each paired with the value at its first occurrence in
`freq ++ nf` / `fEM ++ nfEM`. -/
def merge_freq {α β : Type} [LinearOrder α] [DecidableEq α] [Inhabited β]
    (freq : List α) (fEM : List β) (nf : List α) (nfEM : List β) :
    List α × List β :=
  let all := freq ++ nf
  let vals := List.insertionSort (· ≤ ·) all.dedup
  (vals, vals.map (fun v => (fEM ++ nfEM).getD (all.indexOf v) default))

/-! ### The full-grid reconstruction control sets (source lines 769-790) -/

/-- The three-point geometric ramp beyond the last sampled frequency
(source lines 774-776): log10 steps equal to the last log10 gap. -/
noncomputable def freq_ramp (freq : List ℝ) : List ℝ :=
  let lfreq := freq.map (Real.logb 10)
  let last := lfreq.getD (freq.length - 1) 0
  let d := last - lfreq.getD (freq.length - 2) 0
  ([1, 2, 3] : List ℝ).map (fun j => (10 : ℝ) ^ (last + j * d))

/-- `fEM_ramp = np.array([0.75, 0.5, 0.25])*fEM[-1]` (source line 777). -/
noncomputable def fEM_ramp (fEM : List ℂ) : List ℂ :=
  ([0.75, 0.5, 0.25] : List ℝ).map
    (fun c => (c : ℂ) * fEM.getD (fEM.length - 1) 0)

/-- Imaginary-part control frequencies (source line 780). -/
noncomputable def itmp_f (freq : List ℝ) : List ℝ :=
  fLow :: (freq ++ freq_ramp freq ++ [fHigh])

/-- Imaginary-part control values (source line 781). -/
noncomputable def itmp_s (fEM : List ℂ) : List ℝ :=
  0 :: (fEM.map Complex.im ++ (fEM_ramp fEM).map Complex.im ++ [0])

/-- Real-part control frequencies (source line 785): no low anchor. -/
noncomputable def rtmp_f (freq : List ℝ) : List ℝ :=
  freq ++ freq_ramp freq ++ [fHigh]

/-- Real-part control values (source line 786). -/
noncomputable def rtmp_s (fEM : List ℂ) : List ℝ :=
  fEM.map Complex.re ++ (fEM_ramp fEM).map Complex.re ++ [0]

/-! ### Indexing helpers -/

lemma getD_map_range {α : Type} (f : ℕ → α) {n i : ℕ} (d : α) (h : i < n) :
    ((List.range n).map f).getD i d = f i := by
  have h' : i < ((List.range n).map f).length := by simpa using h
  rw [List.getD_eq_getElem _ _ h']
  simp

lemma getD_logb (freq : List ℝ) (i : ℕ) :
    (freq.map (Real.logb 10)).getD i 0 = Real.logb 10 (freq.getD i 0) := by
  by_cases h : i < freq.length
  · rw [List.getD_eq_getElem _ _ (by simpa using h), List.getD_eq_getElem _ _ h]
    simp
  · rw [List.getD_eq_default _ _ (by simpa using not_lt.mp h),
      List.getD_eq_default _ _ (not_lt.mp h), Real.logb_zero]

lemma np_diff_getD (l : List ℝ) {k : ℕ} (h : k + 1 < l.length) :
    (np_diff l).getD k 0 = l.getD (k + 1) 0 - l.getD k 0 := by
  unfold np_diff
  exact getD_map_range _ _ (by omega)

lemma filter_range_eq_nil_iff (p : ℕ → Bool) (n : ℕ) :
    (List.range n).filter p = [] ↔ ∀ i < n, ¬ p i := by
  rw [List.filter_eq_nil_iff]
  constructor
  · intro h i hi
    exact h i (List.mem_range.mpr hi)
  · intro h i hi
    exact h i (List.mem_range.mp hi)

lemma filter_range_headD (p : ℕ → Bool) {n k : ℕ} (hk : k < n)
    (hpk : p k = true) (hlow : ∀ i < k, ¬ p i) :
    ((List.range n).filter p).headD 0 = k := by
  have hsplit : n = k + (n - k) := by omega
  have hm : n - k = (n - k - 1) + 1 := by omega
  rw [hsplit, List.range_add, List.filter_append]
  have h1 : (List.range k).filter p = [] :=
    (filter_range_eq_nil_iff p k).mpr (fun i hi => hlow i hi)
  rw [h1, List.nil_append, hm, List.range_succ_eq_map]
  simp only [List.map_cons, Nat.add_zero, List.filter_cons, hpk]
  simp

lemma filter_range_singleton (p : ℕ → Bool) {n : ℕ} (hn : 0 < n)
    (hp : p (n - 1) = true) (hlow : ∀ i < n - 1, ¬ p i) :
    (List.range n).filter p = [n - 1] := by
  have hsplit : n = (n - 1) + 1 := by omega
  rw [hsplit, List.range_succ, List.filter_append]
  have h1 : (List.range (n - 1)).filter p = [] :=
    (filter_range_eq_nil_iff p (n - 1)).mpr (fun i hi => hlow i hi)
  rw [h1, List.nil_append]
  simp [hp]

/-! ### Sorted-list helpers -/

lemma sorted_getD_lt {freq : List ℝ} (hs : freq.Pairwise (· < ·)) {i j : ℕ}
    (hij : i < j) (hj : j < freq.length) :
    freq.getD i 0 < freq.getD j 0 := by
  have hi : i < freq.length := lt_trans hij hj
  rw [List.getD_eq_getElem _ _ hi, List.getD_eq_getElem _ _ hj]
  exact List.pairwise_iff_getElem.mp hs i j hi hj hij

lemma sorted_getD_le {freq : List ℝ} (hs : freq.Pairwise (· < ·)) {i j : ℕ}
    (hij : i ≤ j) (hj : j < freq.length) :
    freq.getD i 0 ≤ freq.getD j 0 := by
  rcases lt_or_eq_of_le hij with h | h
  · exact le_of_lt (sorted_getD_lt hs h hj)
  · rw [h]

lemma sorted_head_le {freq : List ℝ} (hs : freq.Pairwise (· < ·)) {x : ℝ}
    (hx : x ∈ freq) : freq.getD 0 0 ≤ x := by
  obtain ⟨j, hj, rfl⟩ := List.mem_iff_getElem.mp hx
  rw [← List.getD_eq_getElem _ 0 hj]
  exact sorted_getD_le hs (Nat.zero_le j) hj

lemma sorted_le_last {freq : List ℝ} (hs : freq.Pairwise (· < ·)) {x : ℝ}
    (hx : x ∈ freq) : x ≤ freq.getD (freq.length - 1) 0 := by
  obtain ⟨j, hj, rfl⟩ := List.mem_iff_getElem.mp hx
  rw [← List.getD_eq_getElem _ 0 hj]
  exact sorted_getD_le hs (by omega) (by omega)

/-! ### Branch characterisation of the refinement rule -/

lemma gnffe_of_first (freq error : List ℝ) (rtol : ℝ) (h0 : 0 < freq.length)
    (hfail : rtol < error.getD 0 0) :
    get_new_freq_from_error freq error rtol
      = [(10 : ℝ) ^ (Real.logb 10 (freq.getD 0 0) - 0.5)] := by
  have hp0 : decide (rtol < error.getD 0 0) = true := decide_eq_true hfail
  have hmem : 0 ∈ (List.range freq.length).filter
      (fun i => decide (rtol < error.getD i 0)) :=
    List.mem_filter.mpr ⟨List.mem_range.mpr h0, hp0⟩
  have hlen : 0 < ((List.range freq.length).filter
      (fun i => decide (rtol < error.getD i 0))).length :=
    List.length_pos.mpr (List.ne_nil_of_mem hmem)
  have hhead : ((List.range freq.length).filter
      (fun i => decide (rtol < error.getD i 0))).headD 0 = 0 :=
    filter_range_headD _ h0 hp0 (fun i hi => absurd hi (by omega))
  simp only [get_new_freq_from_error]
  rw [if_pos hlen, if_pos hfail, hhead, getD_logb]

lemma gnffe_of_last (freq error : List ℝ) (rtol : ℝ) (h2 : 2 ≤ freq.length)
    (hlen : error.length = freq.length)
    (hlow : ∀ i < freq.length - 1, error.getD i 0 ≤ rtol)
    (hfail : rtol < error.getD (freq.length - 1) 0) :
    get_new_freq_from_error freq error rtol
      = [(10 : ℝ) ^ (Real.logb 10 (freq.getD (freq.length - 1) 0) + 0.5)] := by
  have hsing : (List.range freq.length).filter
      (fun i => decide (rtol < error.getD i 0)) = [freq.length - 1] :=
    filter_range_singleton _ (by omega) (decide_eq_true hfail)
      (fun i hi => by simpa using not_lt.mpr (hlow i hi))
  simp only [get_new_freq_from_error, hsing]
  rw [if_pos (by simp)]
  rw [if_neg (not_lt.mpr (hlow 0 (by omega)))]
  rw [hlen, if_pos ⟨hfail, by simp⟩]
  simp only [List.headD_cons]
  rw [getD_logb]

lemma gnffe_of_mid (freq error : List ℝ) (rtol : ℝ) (k : ℕ)
    (hk : k + 1 < freq.length)
    (hlen : error.length = freq.length)
    (h0 : error.getD 0 0 ≤ rtol)
    (hkfail : rtol < error.getD k 0)
    (hkfirst : ∀ i < k, error.getD i 0 ≤ rtol) :
    get_new_freq_from_error freq error rtol
      = [(10 : ℝ) ^ ((Real.logb 10 (freq.getD k 0)
          + Real.logb 10 (freq.getD (k + 1) 0)) / 2)] := by
  have hpk : decide (rtol < error.getD k 0) = true := decide_eq_true hkfail
  have hmem : k ∈ (List.range freq.length).filter
      (fun i => decide (rtol < error.getD i 0)) :=
    List.mem_filter.mpr ⟨List.mem_range.mpr (by omega), hpk⟩
  have hlenpos : 0 < ((List.range freq.length).filter
      (fun i => decide (rtol < error.getD i 0))).length :=
    List.length_pos.mpr (List.ne_nil_of_mem hmem)
  have hhead : ((List.range freq.length).filter
      (fun i => decide (rtol < error.getD i 0))).headD 0 = k :=
    filter_range_headD _ (by omega) hpk
      (fun i hi => by simpa using not_lt.mpr (hkfirst i hi))
  have hnot : ¬ (rtol < error.getD (error.length - 1) 0
      ∧ ((List.range freq.length).filter
        (fun i => decide (rtol < error.getD i 0))).length = 1) := by
    rintro ⟨ha, hb⟩
    obtain ⟨a, hae⟩ := List.length_eq_one.mp hb
    have hak : a = k := by rw [hae] at hhead; simpa using hhead
    have hmem2 : freq.length - 1 ∈ (List.range freq.length).filter
        (fun i => decide (rtol < error.getD i 0)) := by
      refine List.mem_filter.mpr ⟨List.mem_range.mpr (by omega), ?_⟩
      rw [hlen] at ha
      exact decide_eq_true ha
    rw [hae, hak] at hmem2
    have : freq.length - 1 = k := by simpa using hmem2
    omega
  simp only [get_new_freq_from_error]
  rw [if_pos hlenpos, if_neg (not_lt.mpr h0), if_neg hnot, hhead]
  rw [np_diff_getD _ (by simpa using hk), getD_logb, getD_logb]
  have harith : Real.logb 10 (freq.getD k 0)
      + (Real.logb 10 (freq.getD (k + 1) 0) - Real.logb 10 (freq.getD k 0)) / 2
      = (Real.logb 10 (freq.getD k 0) + Real.logb 10 (freq.getD (k + 1) 0)) / 2 := by
    ring
  rw [harith]

lemma gnffe_length_le_one (freq error : List ℝ) (rtol : ℝ) :
    (get_new_freq_from_error freq error rtol).length ≤ 1 := by
  simp only [get_new_freq_from_error]
  split
  · simp
  · simp

lemma gnffe_eq_nil_iff (freq error : List ℝ) (rtol : ℝ) :
    get_new_freq_from_error freq error rtol = []
      ↔ ∀ i < freq.length, error.getD i 0 ≤ rtol := by
  simp only [get_new_freq_from_error]
  by_cases hpos : 0 < ((List.range freq.length).filter
      (fun i => decide (rtol < error.getD i 0))).length
  · rw [if_pos hpos]
    constructor
    · intro h
      exact absurd h (by simp)
    · intro h
      exfalso
      obtain ⟨j, hj⟩ := List.exists_mem_of_ne_nil _ (List.length_pos.mp hpos)
      obtain ⟨hjr, hjp⟩ := List.mem_filter.mp hj
      exact absurd (of_decide_eq_true hjp)
        (not_lt.mpr (h j (List.mem_range.mp hjr)))
  · rw [if_neg hpos]
    have hnil : (List.range freq.length).filter
        (fun i => decide (rtol < error.getD i 0)) = [] :=
      List.length_eq_zero.mp (Nat.eq_zero_of_not_pos hpos)
    have hall := (filter_range_eq_nil_iff _ _).mp hnil
    constructor
    · intro _ i hi
      have := hall i hi
      simpa using this
    · intro _
      rfl

/-! ### pchip on all-zero data -/

lemma getD_zero_of_forall_zero {y : List ℝ} (hy : ∀ v ∈ y, v = 0) (k : ℕ) :
    y.getD k 0 = 0 := by
  by_cases h : k < y.length
  · rw [List.getD_eq_getElem _ _ h]
    exact hy _ (List.getElem_mem h)
  · exact List.getD_eq_default _ _ (not_lt.mp h)

lemma slopeAt_zero {y : List ℝ} (x : List ℝ) (hy : ∀ v ∈ y, v = 0) (k : ℕ) :
    slopeAt x y k = 0 := by
  unfold slopeAt
  rw [getD_zero_of_forall_zero hy, getD_zero_of_forall_zero hy]
  simp

lemma edge_case_zero (h0 h1 : ℝ) : edge_case h0 h1 0 0 = 0 := by
  simp only [edge_case]
  split_ifs <;> simp

lemma pchip_deriv_zero {y : List ℝ} (x : List ℝ) (hy : ∀ v ∈ y, v = 0)
    (k : ℕ) : pchip_deriv x y k = 0 := by
  simp only [pchip_deriv]
  split_ifs with h1 h2 h3 h4
  · exact slopeAt_zero x hy 0
  · rw [slopeAt_zero x hy, slopeAt_zero x hy]
    exact edge_case_zero _ _
  · rw [slopeAt_zero x hy, slopeAt_zero x hy]
    exact edge_case_zero _ _
  · rfl
  · exact absurd (Or.inr (Or.inl (slopeAt_zero x hy (k - 1)))) h4

lemma pchip_interpolate_zero (x : List ℝ) {y : List ℝ}
    (hy : ∀ v ∈ y, v = 0) (q : ℝ) : pchip_interpolate x y q = 0 := by
  simp only [pchip_interpolate]
  rw [getD_zero_of_forall_zero hy, getD_zero_of_forall_zero hy,
    pchip_deriv_zero x hy, pchip_deriv_zero x hy]
  ring

/-! ### Pointwise description of the estimator arrays -/

lemma i_field_length (freq : List ℝ) (field : List ℂ) :
    (i_field freq field).length = freq.length := by
  simp [i_field]

lemma i_field_getD (freq : List ℝ) (field : List ℂ) {i : ℕ}
    (hi : i < freq.length) :
    (i_field freq field).getD i 0
      = Complex.I * ((pchip_interpolate (tmp_f freq i)
          ((tmp_s freq field i).map Complex.im) (freq.getD i 0) : ℝ) : ℂ) := by
  unfold i_field
  exact getD_map_range _ _ hi

lemma error_vec_length (iField field : List ℂ) :
    (error_vec iField field).length = min iField.length field.length := by
  simp [error_vec]

lemma error_vec_getD (iField field : List ℂ) {i : ℕ}
    (hi : i < iField.length) (hi2 : i < field.length) :
    (error_vec iField field).getD i 0
      = |((iField.getD i 0).im - (field.getD i 0).im) / maxAbs field| := by
  have hz : i < (iField.zip field).length := by
    rw [List.length_zip]; omega
  rw [List.getD_eq_getElem iField _ hi, List.getD_eq_getElem field _ hi2]
  unfold error_vec
  rw [List.getD_eq_getElem _ _ (by simpa using hz)]
  simp [List.getElem_zip]

lemma error_vec_spec_getD (iField field : List ℂ) {i : ℕ}
    (hi : i < iField.length) (hi2 : i < field.length) :
    (error_vec_spec iField field).getD i 0
      = |(iField.getD i 0).im - (field.getD i 0).im| / maxAbsIm field := by
  have hz : i < (iField.zip field).length := by
    rw [List.length_zip]; omega
  rw [List.getD_eq_getElem iField _ hi, List.getD_eq_getElem field _ hi2]
  unfold error_vec_spec
  rw [List.getD_eq_getElem _ _ (by simpa using hz)]
  simp [List.getElem_zip]

lemma foldr_max_nonneg (l : List ℝ) : 0 ≤ l.foldr max 0 := by
  induction l with
  | nil => exact le_refl 0
  | cons a t ih => exact le_trans ih (le_max_right a _)

lemma maxAbs_nonneg (field : List ℂ) : 0 ≤ maxAbs field :=
  foldr_max_nonneg _

/-! ### Concrete evaluations used by counterexamples and witnesses -/

lemma maxFreq_concrete : maxFreq [1, 10] = 10 := by
  unfold maxFreq
  simp only [List.foldr_cons, List.foldr_nil]
  rw [max_eq_left (by norm_num : (0 : ℝ) ≤ 10),
    max_eq_right (by norm_num : (1 : ℝ) ≤ 10)]

lemma maxFreq_lt_f4 : maxFreq [1, 10] < f4 := by
  rw [maxFreq_concrete]
  unfold f4
  norm_num

lemma abs_mk_04 : Complex.abs ⟨0, 4⟩ = 4 := by
  rw [Complex.abs_apply, Complex.normSq_mk,
    show (0 : ℝ) * 0 + 4 * 4 = 4 ^ 2 by norm_num]
  exact Real.sqrt_sq (by norm_num)

lemma abs_mk_300 : Complex.abs ⟨30, 0⟩ = 30 := by
  rw [Complex.abs_apply, Complex.normSq_mk,
    show (30 : ℝ) * 30 + 0 * 0 = 30 ^ 2 by norm_num]
  exact Real.sqrt_sq (by norm_num)

lemma maxAbs_concrete : maxAbs [⟨0, 4⟩, ⟨30, 0⟩] = 30 := by
  unfold maxAbs
  simp only [List.map_cons, List.map_nil, List.foldr_cons, List.foldr_nil,
    abs_mk_04, abs_mk_300]
  rw [max_eq_left (by norm_num : (0 : ℝ) ≤ 30),
    max_eq_right (by norm_num : (4 : ℝ) ≤ 30)]

lemma maxAbsIm_concrete : maxAbsIm [⟨0, 4⟩, ⟨30, 0⟩] = 4 := by
  unfold maxAbsIm
  simp only [List.map_cons, List.map_nil, List.foldr_cons, List.foldr_nil]
  rw [abs_of_nonneg (by norm_num : (0 : ℝ) ≤ 4), abs_zero]
  rw [max_self, max_eq_left (by norm_num : (0 : ℝ) ≤ 4)]

lemma tmp_s_im_concrete :
    (tmp_s [1, 10] [⟨0, 4⟩, ⟨30, 0⟩] 0).map Complex.im = [0, 0, 0, 0] := by
  unfold tmp_s
  rw [if_pos maxFreq_lt_f4]
  simp [List.eraseIdx]

lemma i_field_head_concrete :
    (i_field [1, 10] [⟨0, 4⟩, ⟨30, 0⟩]).getD 0 0 = 0 := by
  rw [i_field_getD _ _ (by simp)]
  rw [tmp_s_im_concrete]
  rw [pchip_interpolate_zero _ (by intro v hv; simpa using hv)]
  simp

lemma error0_concrete :
    (error_vec (i_field [1, 10] [⟨0, 4⟩, ⟨30, 0⟩]) [⟨0, 4⟩, ⟨30, 0⟩]).getD 0 0
      = 4 / 30 := by
  rw [error_vec_getD _ _ (by rw [i_field_length]; simp) (by simp)]
  rw [i_field_head_concrete, maxAbs_concrete]
  simp only [List.getD_cons_zero, Complex.zero_im]
  rw [abs_of_nonpos (by norm_num)]
  norm_num

lemma error0_spec_concrete :
    (error_vec_spec (i_field [1, 10] [⟨0, 4⟩, ⟨30, 0⟩])
      [⟨0, 4⟩, ⟨30, 0⟩]).getD 0 0 = 1 := by
  rw [error_vec_spec_getD _ _ (by rw [i_field_length]; simp) (by simp)]
  rw [i_field_head_concrete, maxAbsIm_concrete]
  simp only [List.getD_cons_zero, Complex.zero_im]
  rw [abs_of_nonpos (by norm_num)]
  norm_num

/-! ### Claims -/

/-- C1, counterexample: at frequencies `[1, 10]` with field `[4i, 30]`, the
error reported by the estimator for sample 0 (namely `4/30`, normalised by
the largest complex magnitude `30`) differs from the value obtained with
the normalisation stated in the claim (`4/4 = 1`, normalised by the largest
absolute imaginary part), so the claimed formula is false on the code. -/
theorem claim_C1_counterexample :
    (error_vec (i_field [1, 10] [⟨0, 4⟩, ⟨30, 0⟩]) [⟨0, 4⟩, ⟨30, 0⟩]).getD 0 0
      ≠ (error_vec_spec (i_field [1, 10] [⟨0, 4⟩, ⟨30, 0⟩])
          [⟨0, 4⟩, ⟨30, 0⟩]).getD 0 0 := by
  rw [error0_concrete, error0_spec_concrete]
  norm_num

/-- C1, amended: the relative error reported for sample `i` equals
`|estimate.imag - actual.imag|` divided by the maximum of the complex
magnitudes `|actual|` over all current samples (source line 597 divides by
`max(np.abs(field))`, not by the largest absolute imaginary part). -/
theorem claim_C1_amended (freq : List ℝ) (field : List ℂ) (i : ℕ)
    (hlen : freq.length = field.length) (hi : i < field.length) :
    (error_vec (i_field freq field) field).getD i 0
      = |((i_field freq field).getD i 0).im - (field.getD i 0).im|
        / maxAbs field := by
  rw [error_vec_getD _ _ (by rw [i_field_length]; omega) hi, abs_div]
  congr 1
  exact abs_of_nonneg (maxAbs_nonneg field)

/-- Witness for C1 (amended) at the concrete input used above. -/
theorem claim_C1_amended_witness :
    ([1, 10] : List ℝ).length = ([⟨0, 4⟩, ⟨30, 0⟩] : List ℂ).length
    ∧ 0 < ([⟨0, 4⟩, ⟨30, 0⟩] : List ℂ).length
    ∧ (error_vec (i_field [1, 10] [⟨0, 4⟩, ⟨30, 0⟩]) [⟨0, 4⟩, ⟨30, 0⟩]).getD 0 0
        = |((i_field [1, 10] [⟨0, 4⟩, ⟨30, 0⟩]).getD 0 0).im
            - (([⟨0, 4⟩, ⟨30, 0⟩] : List ℂ).getD 0 0).im|
          / maxAbs [⟨0, 4⟩, ⟨30, 0⟩] :=
  ⟨by simp, by simp, claim_C1_amended [1, 10] [⟨0, 4⟩, ⟨30, 0⟩] 0 (by simp) (by simp)⟩

/-- C2: for a sorted nonempty frequency set, whenever the relative error at
the lowest-frequency sample exceeds `rtol`, the refiner proposes exactly the
single frequency `10 ^ (log10 f_min - 0.5)`; the rest of the error vector is
universally quantified, so a simultaneously failing interior or last sample
cannot change the outcome (the low-frequency extension has priority). -/
theorem claim_C2_low_extension (freq error : List ℝ) (rtol : ℝ)
    (hs : freq.Pairwise (· < ·)) (h0 : 0 < freq.length)
    (hfail : rtol < error.getD 0 0) :
    get_new_freq_from_error freq error rtol
      = [(10 : ℝ) ^ (Real.logb 10 (freq.getD 0 0) - 0.5)]
    ∧ ∀ x ∈ freq, freq.getD 0 0 ≤ x :=
  ⟨gnffe_of_first freq error rtol h0 hfail, fun _ hx => sorted_head_le hs hx⟩

/-- Witness for C2: two samples, both failing (the first and the last), and
the proposal is still the downward half-decade extension. -/
theorem claim_C2_low_extension_witness :
    List.Pairwise (· < ·) ([1, 10] : List ℝ)
    ∧ 0 < ([1, 10] : List ℝ).length
    ∧ (1 : ℝ) / 2 < ([1, 1] : List ℝ).getD 0 0
    ∧ (get_new_freq_from_error [1, 10] [1, 1] (1 / 2)
        = [(10 : ℝ) ^ (Real.logb 10 (([1, 10] : List ℝ).getD 0 0) - 0.5)]
      ∧ ∀ x ∈ ([1, 10] : List ℝ), ([1, 10] : List ℝ).getD 0 0 ≤ x) :=
  ⟨by norm_num, by simp, by norm_num,
   claim_C2_low_extension [1, 10] [1, 1] (1 / 2) (by norm_num) (by simp)
     (by norm_num)⟩

/-- C3: for a sorted frequency set in which the highest-frequency sample is
the only one whose relative error exceeds `rtol` (in particular the lowest
one does not), the refiner proposes exactly `10 ^ (log10 f_max + 0.5)`. -/
theorem claim_C3_high_extension (freq error : List ℝ) (rtol : ℝ)
    (hs : freq.Pairwise (· < ·)) (h2 : 2 ≤ freq.length)
    (hlen : error.length = freq.length)
    (hlow : ∀ i < freq.length - 1, error.getD i 0 ≤ rtol)
    (hfail : rtol < error.getD (freq.length - 1) 0) :
    get_new_freq_from_error freq error rtol
      = [(10 : ℝ) ^ (Real.logb 10 (freq.getD (freq.length - 1) 0) + 0.5)]
    ∧ ∀ x ∈ freq, x ≤ freq.getD (freq.length - 1) 0 :=
  ⟨gnffe_of_last freq error rtol h2 hlen hlow hfail,
   fun _ hx => sorted_le_last hs hx⟩

/-- Witness for C3: only the last of two samples fails. -/
theorem claim_C3_high_extension_witness :
    List.Pairwise (· < ·) ([1, 10] : List ℝ)
    ∧ (∀ i < ([1, 10] : List ℝ).length - 1, ([0, 1] : List ℝ).getD i 0 ≤ 1 / 2)
    ∧ (1 : ℝ) / 2 < ([0, 1] : List ℝ).getD (([1, 10] : List ℝ).length - 1) 0
    ∧ (get_new_freq_from_error [1, 10] [0, 1] (1 / 2)
        = [(10 : ℝ) ^ (Real.logb 10 (([1, 10] : List ℝ).getD
            (([1, 10] : List ℝ).length - 1) 0) + 0.5)]
      ∧ ∀ x ∈ ([1, 10] : List ℝ),
          x ≤ ([1, 10] : List ℝ).getD (([1, 10] : List ℝ).length - 1) 0) :=
  ⟨by norm_num, by intro i hi; simp at hi; subst hi; norm_num, by norm_num,
   claim_C3_high_extension [1, 10] [0, 1] (1 / 2) (by norm_num) (by simp) rfl
     (by intro i hi; simp at hi; subst hi; norm_num) (by norm_num)⟩

/-- C4: when neither the low-extension nor the sole-last rule applies and
`k` is the lowest failing index, the refiner proposes exactly the log10
midpoint `10 ^ ((log10 f_k + log10 f_(k+1)) / 2)` of the failing sample and
its next neighbour in the sorted list. -/
theorem claim_C4_interior_bisection (freq error : List ℝ) (rtol : ℝ) (k : ℕ)
    (hs : freq.Pairwise (· < ·))
    (hk : k + 1 < freq.length)
    (hlen : error.length = freq.length)
    (h0 : error.getD 0 0 ≤ rtol)
    (hkfail : rtol < error.getD k 0)
    (hkfirst : ∀ i < k, error.getD i 0 ≤ rtol) :
    get_new_freq_from_error freq error rtol
      = [(10 : ℝ) ^ ((Real.logb 10 (freq.getD k 0)
          + Real.logb 10 (freq.getD (k + 1) 0)) / 2)]
    ∧ freq.getD k 0 < freq.getD (k + 1) 0 :=
  ⟨gnffe_of_mid freq error rtol k hk hlen h0 hkfail hkfirst,
   sorted_getD_lt hs (lt_add_one k) hk⟩

/-- Witness for C4: the middle of three samples is the only failing one. -/
theorem claim_C4_interior_bisection_witness :
    List.Pairwise (· < ·) ([1, 10, 100] : List ℝ)
    ∧ ([0, 1, 0] : List ℝ).getD 0 0 ≤ 1 / 2
    ∧ (1 : ℝ) / 2 < ([0, 1, 0] : List ℝ).getD 1 0
    ∧ (get_new_freq_from_error [1, 10, 100] [0, 1, 0] (1 / 2)
        = [(10 : ℝ) ^ ((Real.logb 10 (([1, 10, 100] : List ℝ).getD 1 0)
            + Real.logb 10 (([1, 10, 100] : List ℝ).getD 2 0)) / 2)]
      ∧ ([1, 10, 100] : List ℝ).getD 1 0 < ([1, 10, 100] : List ℝ).getD 2 0) :=
  ⟨by norm_num, by norm_num, by norm_num,
   claim_C4_interior_bisection [1, 10, 100] [0, 1, 0] (1 / 2) 1 (by norm_num)
     (by simp) rfl (by norm_num) (by norm_num)
     (by intro i hi; simp at hi; subst hi; norm_num)⟩

/-- C5: `get_new_freq` proposes at most one new frequency per call, returns
the empty proposal exactly when every per-sample relative error is at most
`rtol`, and, being a pure function of its arguments, returns the same
result when re-invoked on an unchanged sample set. -/
theorem claim_C5_single_proposal (freq : List ℝ) (field : List ℂ) (rtol : ℝ) :
    (get_new_freq freq field rtol).length ≤ 1
    ∧ (get_new_freq freq field rtol = []
        ↔ ∀ i < freq.length,
            (error_vec (i_field freq field) field).getD i 0 ≤ rtol)
    ∧ get_new_freq freq field rtol = get_new_freq freq field rtol :=
  ⟨gnffe_length_le_one _ _ _, gnffe_eq_nil_iff _ _ _, rfl⟩

/-- C7: the code does not raise any error on an all-zero field.  At the
degenerate input `freq = [1, 10]`, `field = [0, 0]`, `rtol = 1/100` the
estimator divides by a zero maximum magnitude (numpy: `nan`; here exact
`0`), no comparison exceeds `rtol`, and `get_new_freq` silently returns the
empty proposal, i.e. it treats the degenerate set as converged instead of
surfacing a `DegenerateFieldError` (no such error exists in the source). -/
theorem claim_C7_degenerate_field_is_silent :
    get_new_freq [1, 10] [0, 0] (1 / 100) = [] := by
  rw [get_new_freq, gnffe_eq_nil_iff]
  intro i hi
  have hiF : i < (i_field [1, 10] ([0, 0] : List ℂ)).length := by
    rw [i_field_length]
    simpa using hi
  rw [error_vec_getD _ _ hiF (by simpa using hi)]
  have hz : maxAbs ([0, 0] : List ℂ) = 0 := by
    simp [maxAbs]
  rw [hz, div_zero, abs_zero]
  norm_num

/-! ### A proposed frequency is always new -/

lemma gnffe_not_mem (freq error : List ℝ) (rtol : ℝ)
    (hs : freq.Pairwise (· < ·)) (hpos : ∀ x ∈ freq, 0 < x)
    (h2 : 2 ≤ freq.length) (hlen : error.length = freq.length) :
    ∀ f ∈ get_new_freq_from_error freq error rtol, f ∉ freq := by
  intro f hf hmem
  by_cases hconv : ∀ i < freq.length, error.getD i 0 ≤ rtol
  · rw [(gnffe_eq_nil_iff freq error rtol).mpr hconv] at hf
    exact absurd hf (List.not_mem_nil f)
  push_neg at hconv
  obtain ⟨i0, hi0n, hi0⟩ := hconv
  have hget : ∀ {j : ℕ}, j < freq.length → freq.getD j 0 ∈ freq := by
    intro j hj
    rw [List.getD_eq_getElem _ _ hj]
    exact List.getElem_mem hj
  by_cases hA : rtol < error.getD 0 0
  · rw [gnffe_of_first freq error rtol (by omega) hA] at hf
    rw [List.mem_singleton] at hf
    subst hf
    have hf0 : 0 < freq.getD 0 0 := hpos _ (hget (by omega))
    have hlt : (10 : ℝ) ^ (Real.logb 10 (freq.getD 0 0) - 0.5)
        < freq.getD 0 0 := by
      calc (10 : ℝ) ^ (Real.logb 10 (freq.getD 0 0) - 0.5)
          < 10 ^ Real.logb 10 (freq.getD 0 0) := by
            rw [Real.rpow_lt_rpow_left_iff (by norm_num : (1 : ℝ) < 10)]
            norm_num
        _ = freq.getD 0 0 := Real.rpow_logb (by norm_num) (by norm_num) hf0
    exact absurd (sorted_head_le hs hmem) (not_le.mpr hlt)
  · have hPex : ∃ i, rtol < error.getD i 0 := ⟨i0, hi0⟩
    classical
    set k := Nat.find hPex with hkdef
    have hPk : rtol < error.getD k 0 := Nat.find_spec hPex
    have hkmin : ∀ i < k, ¬ rtol < error.getD i 0 := fun i hi =>
      Nat.find_min hPex hi
    have hkle : k ≤ i0 := Nat.find_min' hPex hi0
    have hkn : k < freq.length := lt_of_le_of_lt hkle hi0n
    have hk0 : k ≠ 0 := by
      intro h
      rw [h] at hPk
      exact hA hPk
    by_cases hklast : k = freq.length - 1
    · have hlow : ∀ i < freq.length - 1, error.getD i 0 ≤ rtol := by
        intro i hi
        by_contra hc
        push_neg at hc
        have := Nat.find_min' hPex hc
        omega
      rw [gnffe_of_last freq error rtol h2 hlen hlow (hklast ▸ hPk)] at hf
      rw [List.mem_singleton] at hf
      subst hf
      have hfl : 0 < freq.getD (freq.length - 1) 0 := hpos _ (hget (by omega))
      have hgt : freq.getD (freq.length - 1) 0
          < (10 : ℝ) ^ (Real.logb 10 (freq.getD (freq.length - 1) 0) + 0.5) := by
        calc freq.getD (freq.length - 1) 0
            = 10 ^ Real.logb 10 (freq.getD (freq.length - 1) 0) :=
              (Real.rpow_logb (by norm_num) (by norm_num) hfl).symm
          _ < _ := by
              rw [Real.rpow_lt_rpow_left_iff (by norm_num : (1 : ℝ) < 10)]
              norm_num
      exact absurd (sorted_le_last hs hmem) (not_le.mpr hgt)
    · have hkk : k + 1 < freq.length := by omega
      have hkfirst : ∀ i < k, error.getD i 0 ≤ rtol := fun i hi =>
        not_lt.mp (hkmin i hi)
      rw [gnffe_of_mid freq error rtol k hkk hlen (not_lt.mp hA) hPk hkfirst]
        at hf
      rw [List.mem_singleton] at hf
      subst hf
      have hfk : 0 < freq.getD k 0 := hpos _ (hget (by omega))
      have hfk1 : 0 < freq.getD (k + 1) 0 := hpos _ (hget hkk)
      have hffk : freq.getD k 0 < freq.getD (k + 1) 0 :=
        sorted_getD_lt hs (lt_add_one k) hkk
      have hlk : Real.logb 10 (freq.getD k 0)
          < Real.logb 10 (freq.getD (k + 1) 0) :=
        Real.logb_lt_logb (by norm_num) hfk hffk
      have h1 : freq.getD k 0 < (10 : ℝ) ^ ((Real.logb 10 (freq.getD k 0)
          + Real.logb 10 (freq.getD (k + 1) 0)) / 2) := by
        calc freq.getD k 0 = 10 ^ Real.logb 10 (freq.getD k 0) :=
            (Real.rpow_logb (by norm_num) (by norm_num) hfk).symm
          _ < _ := by
            rw [Real.rpow_lt_rpow_left_iff (by norm_num : (1 : ℝ) < 10)]
            linarith
      have h2' : (10 : ℝ) ^ ((Real.logb 10 (freq.getD k 0)
          + Real.logb 10 (freq.getD (k + 1) 0)) / 2)
          < freq.getD (k + 1) 0 := by
        calc (10 : ℝ) ^ ((Real.logb 10 (freq.getD k 0)
              + Real.logb 10 (freq.getD (k + 1) 0)) / 2)
            < 10 ^ Real.logb 10 (freq.getD (k + 1) 0) := by
              rw [Real.rpow_lt_rpow_left_iff (by norm_num : (1 : ℝ) < 10)]
              linarith
          _ = freq.getD (k + 1) 0 :=
              Real.rpow_logb (by norm_num) (by norm_num) hfk1
      obtain ⟨j, hj, hjeq⟩ := List.mem_iff_getElem.mp hmem
      rw [← List.getD_eq_getElem _ 0 hj] at hjeq
      rcases le_or_lt j k with hjk | hjk
      · have hle : freq.getD j 0 ≤ freq.getD k 0 :=
          sorted_getD_le hs hjk (by omega)
        rw [hjeq] at hle
        linarith
      · have hge : freq.getD (k + 1) 0 ≤ freq.getD j 0 :=
          sorted_getD_le hs hjk hj
        rw [hjeq] at hge
        linarith

/-- C10: for a strictly increasing list of positive frequencies with at
least two elements, any frequency proposed by `get_new_freq` is not already
an element of the list (the low extension lies strictly below the minimum,
the high extension strictly above the maximum, and the interior bisection
strictly between the failing sample and its next neighbour), so an accepted
proposal strictly enlarges the sample set. -/
theorem claim_C10_progress (freq : List ℝ) (field : List ℂ) (rtol : ℝ)
    (hs : freq.Pairwise (· < ·)) (hpos : ∀ x ∈ freq, 0 < x)
    (h2 : 2 ≤ freq.length) (hlen : field.length = freq.length) :
    ∀ f ∈ get_new_freq freq field rtol, f ∉ freq := by
  have herr : (error_vec (i_field freq field) field).length = freq.length := by
    rw [error_vec_length, i_field_length, hlen, min_self]
  exact gnffe_not_mem freq _ rtol hs hpos h2 herr

/-- Witness for C10 at a concrete sorted positive input. -/
theorem claim_C10_progress_witness :
    List.Pairwise (· < ·) ([1, 10] : List ℝ)
    ∧ (∀ x ∈ ([1, 10] : List ℝ), 0 < x)
    ∧ 2 ≤ ([1, 10] : List ℝ).length
    ∧ ([⟨0, 4⟩, ⟨30, 0⟩] : List ℂ).length = ([1, 10] : List ℝ).length
    ∧ ∀ f ∈ get_new_freq [1, 10] [⟨0, 4⟩, ⟨30, 0⟩] (1 / 100),
        f ∉ ([1, 10] : List ℝ) :=
  ⟨by norm_num,
   by intro x hx; simp at hx; rcases hx with h | h <;> (subst h; norm_num),
   by simp, by simp,
   claim_C10_progress [1, 10] [⟨0, 4⟩, ⟨30, 0⟩] (1 / 100) (by norm_num)
     (by intro x hx; simp at hx; rcases hx with h | h <;> (subst h; norm_num))
     (by simp) (by simp)⟩

/-! ### Anchor arithmetic -/

lemma fLow_ne_f4 : fLow ≠ f4 := by
  unfold fLow f4
  norm_num

lemma fHigh_ne_f4 : fHigh ≠ f4 := by
  unfold fHigh f4
  norm_num

/-- C6: the leave-one-out control set for sample `i` is the sample set with
entry `i` removed, preceded by the zero-field anchor at `1e-100` Hz and
followed by the zero-field anchors at `1e4` (present exactly when the
largest sample frequency is below `1e4` Hz) and `1e100` Hz; the anchors are
excluded from scoring, so the error vector has exactly one entry per real
sample. -/
theorem claim_C6_leave_one_out_controls (freq : List ℝ) (field : List ℂ)
    (i : ℕ) (hlen : field.length = freq.length) (h4 : f4 ∉ freq) :
    (error_vec (i_field freq field) field).length = freq.length
    ∧ (i_field freq field).length = freq.length
    ∧ tmp_f freq i
        = fLow :: (freq.eraseIdx i
            ++ (if maxFreq freq < f4 then [f4, fHigh] else [fHigh]))
    ∧ tmp_s freq field i
        = 0 :: (field.eraseIdx i
            ++ (if maxFreq freq < f4 then [0, 0] else [0]))
    ∧ (f4 ∈ tmp_f freq i ↔ maxFreq freq < f4) := by
  refine ⟨?_, i_field_length freq field, ?_, ?_, ?_⟩
  · rw [error_vec_length, i_field_length, hlen, min_self]
  · unfold tmp_f
    by_cases h : maxFreq freq < f4
    · rw [if_pos h, if_pos h]
    · rw [if_neg h, if_neg h]
  · unfold tmp_s
    by_cases h : maxFreq freq < f4
    · rw [if_pos h, if_pos h]
    · rw [if_neg h, if_neg h]
  · constructor
    · intro hmem
      by_contra h
      unfold tmp_f at hmem
      rw [if_neg h] at hmem
      rcases List.mem_cons.mp hmem with hc | hc
      · exact fLow_ne_f4 hc.symm
      rcases List.mem_append.mp hc with hc2 | hc2
      · exact h4 (List.eraseIdx_subset _ _ hc2)
      · rw [List.mem_singleton] at hc2
        exact fHigh_ne_f4 hc2.symm
    · intro h
      unfold tmp_f
      rw [if_pos h]
      simp

/-- Witness for C6 at a concrete two-sample input. -/
theorem claim_C6_leave_one_out_controls_witness :
    ([⟨0, 4⟩, ⟨30, 0⟩] : List ℂ).length = ([1, 10] : List ℝ).length
    ∧ f4 ∉ ([1, 10] : List ℝ)
    ∧ ((error_vec (i_field [1, 10] [⟨0, 4⟩, ⟨30, 0⟩])
          [⟨0, 4⟩, ⟨30, 0⟩]).length = ([1, 10] : List ℝ).length
      ∧ (i_field [1, 10] [⟨0, 4⟩, ⟨30, 0⟩]).length = ([1, 10] : List ℝ).length
      ∧ tmp_f [1, 10] 0
          = fLow :: (([1, 10] : List ℝ).eraseIdx 0
              ++ (if maxFreq [1, 10] < f4 then [f4, fHigh] else [fHigh]))
      ∧ tmp_s [1, 10] [⟨0, 4⟩, ⟨30, 0⟩] 0
          = 0 :: (([⟨0, 4⟩, ⟨30, 0⟩] : List ℂ).eraseIdx 0
              ++ (if maxFreq [1, 10] < f4 then [0, 0] else [0]))
      ∧ (f4 ∈ tmp_f [1, 10] 0 ↔ maxFreq [1, 10] < f4)) :=
  ⟨by simp, by unfold f4; norm_num,
   claim_C6_leave_one_out_controls [1, 10] [⟨0, 4⟩, ⟨30, 0⟩] 0 (by simp)
     (by unfold f4; norm_num)⟩

/-- C9: in the full target-grid reconstruction, the imaginary-part control
set is the zero anchor at `1e-100` Hz, the samples, three ramp points whose
log10 frequencies step beyond the last sample by the last log10 gap and
whose values are `0.75`, `0.5`, `0.25` times the last sample value, and the
zero anchor at `1e100` Hz; the real-part control set is identical except
that it omits the low-frequency zero anchor. -/
theorem claim_C9_reconstruction_controls (freq : List ℝ) (fEM : List ℂ)
    (_h2 : 2 ≤ freq.length) :
    itmp_f freq = fLow :: rtmp_f freq
    ∧ rtmp_f freq = freq ++ freq_ramp freq ++ [fHigh]
    ∧ freq_ramp freq
        = [(10 : ℝ) ^ (Real.logb 10 (freq.getD (freq.length - 1) 0)
              + (Real.logb 10 (freq.getD (freq.length - 1) 0)
                - Real.logb 10 (freq.getD (freq.length - 2) 0))),
           (10 : ℝ) ^ (Real.logb 10 (freq.getD (freq.length - 1) 0)
              + 2 * (Real.logb 10 (freq.getD (freq.length - 1) 0)
                - Real.logb 10 (freq.getD (freq.length - 2) 0))),
           (10 : ℝ) ^ (Real.logb 10 (freq.getD (freq.length - 1) 0)
              + 3 * (Real.logb 10 (freq.getD (freq.length - 1) 0)
                - Real.logb 10 (freq.getD (freq.length - 2) 0)))]
    ∧ fEM_ramp fEM
        = [(3 / 4 : ℂ) * fEM.getD (fEM.length - 1) 0,
           (1 / 2 : ℂ) * fEM.getD (fEM.length - 1) 0,
           (1 / 4 : ℂ) * fEM.getD (fEM.length - 1) 0]
    ∧ itmp_s fEM
        = 0 :: (fEM.map Complex.im ++ (fEM_ramp fEM).map Complex.im ++ [0])
    ∧ rtmp_s fEM
        = fEM.map Complex.re ++ (fEM_ramp fEM).map Complex.re ++ [0] := by
  refine ⟨rfl, rfl, ?_, ?_, rfl, rfl⟩
  · unfold freq_ramp
    simp only [List.map_cons, List.map_nil, getD_logb]
    norm_num
  · unfold fEM_ramp
    norm_num

/-- Witness for C9 at a concrete two-sample input. -/
theorem claim_C9_reconstruction_controls_witness :
    2 ≤ ([1, 10] : List ℝ).length
    ∧ itmp_f [1, 10] = fLow :: rtmp_f [1, 10] :=
  ⟨by simp,
   (claim_C9_reconstruction_controls [1, 10] [⟨0, 4⟩, ⟨30, 0⟩] (by simp)).1⟩

/-! ### Merge invariants -/

/-- C8: after merging a refiner proposal into the running arrays, the
frequency list is strictly increasing with unique entries and the field
list stays aligned with it (same length, and every pre-existing frequency
keeps the field value it already had, because `np.unique`'s
`return_index` picks the first occurrence in the concatenation); the size
never decreases and grows by at most one element when at most one new
frequency is merged. -/
theorem claim_C8_merge_invariants {α β : Type} [LinearOrder α]
    [DecidableEq α] [Inhabited β]
    (freq : List α) (fEM : List β) (nf : List α) (nfEM : List β)
    (hnd : freq.Nodup) (hlen : fEM.length = freq.length)
    (hone : nf.length ≤ 1) :
    (merge_freq freq fEM nf nfEM).1.Pairwise (· < ·)
    ∧ (merge_freq freq fEM nf nfEM).2.length
        = (merge_freq freq fEM nf nfEM).1.length
    ∧ freq.length ≤ (merge_freq freq fEM nf nfEM).1.length
    ∧ (merge_freq freq fEM nf nfEM).1.length ≤ freq.length + 1
    ∧ ∀ v ∈ freq, v ∈ (merge_freq freq fEM nf nfEM).1
        ∧ (merge_freq freq fEM nf nfEM).2.getD
            ((merge_freq freq fEM nf nfEM).1.indexOf v) default
          = fEM.getD (freq.indexOf v) default := by
  have hperm : List.Perm (List.insertionSort (· ≤ ·) (freq ++ nf).dedup)
      (freq ++ nf).dedup := List.perm_insertionSort _ _
  have hsorted : List.Sorted (· ≤ ·)
      (List.insertionSort (· ≤ ·) (freq ++ nf).dedup) :=
    List.sorted_insertionSort _ _
  have hnodup : (List.insertionSort (· ≤ ·) (freq ++ nf).dedup).Nodup :=
    hperm.symm.nodup (List.nodup_dedup _)
  have hmemv : ∀ v ∈ freq,
      v ∈ List.insertionSort (· ≤ ·) (freq ++ nf).dedup := by
    intro v hv
    rw [hperm.mem_iff, List.mem_dedup]
    exact List.mem_append_left nf hv
  refine ⟨?_, by simp [merge_freq], ?_, ?_, ?_⟩
  · exact (hsorted.and hnodup).imp (fun h => lt_of_le_of_ne h.1 h.2)
  · exact (List.subperm_of_subset hnd (fun v hv => hmemv v hv)).length_le
  · have h1 : (List.insertionSort (· ≤ ·) (freq ++ nf).dedup).length
        = (freq ++ nf).dedup.length := hperm.length_eq
    have h2 : (freq ++ nf).dedup.length ≤ (freq ++ nf).length :=
      (List.dedup_sublist _).length_le
    rw [List.length_append] at h2
    show (List.insertionSort (· ≤ ·) (freq ++ nf).dedup).length
      ≤ freq.length + 1
    omega
  · intro v hv
    refine ⟨hmemv v hv, ?_⟩
    have hvm := hmemv v hv
    have hidx : (List.insertionSort (· ≤ ·) (freq ++ nf).dedup).indexOf v
        < (List.insertionSort (· ≤ ·) (freq ++ nf).dedup).length :=
      List.indexOf_lt_length.mpr hvm
    show ((List.insertionSort (· ≤ ·) (freq ++ nf).dedup).map
        (fun w => (fEM ++ nfEM).getD ((freq ++ nf).indexOf w) default)).getD
        ((List.insertionSort (· ≤ ·) (freq ++ nf).dedup).indexOf v) default
      = fEM.getD (freq.indexOf v) default
    rw [List.getD_eq_getElem _ _ (by simpa using hidx)]
    rw [List.getElem_map]
    rw [List.getElem_indexOf hidx]
    rw [List.indexOf_append_of_mem hv]
    have hfi : freq.indexOf v < fEM.length := by
      rw [hlen]
      exact List.indexOf_lt_length.mpr hv
    exact List.getD_append _ _ _ _ hfi

/-- Witness for C8 at a concrete integer instance of the merge. -/
theorem claim_C8_merge_invariants_witness :
    ([1, 3] : List ℤ).Nodup
    ∧ ([10, 30] : List ℤ).length = ([1, 3] : List ℤ).length
    ∧ ([2] : List ℤ).length ≤ 1
    ∧ ((merge_freq ([1, 3] : List ℤ) ([10, 30] : List ℤ) [2] [20]).1.Pairwise
        (· < ·)
      ∧ (merge_freq ([1, 3] : List ℤ) ([10, 30] : List ℤ) [2] [20]).2.length
          = (merge_freq ([1, 3] : List ℤ) ([10, 30] : List ℤ) [2] [20]).1.length
      ∧ ([1, 3] : List ℤ).length
          ≤ (merge_freq ([1, 3] : List ℤ) ([10, 30] : List ℤ) [2] [20]).1.length
      ∧ (merge_freq ([1, 3] : List ℤ) ([10, 30] : List ℤ) [2] [20]).1.length
          ≤ ([1, 3] : List ℤ).length + 1
      ∧ ∀ v ∈ ([1, 3] : List ℤ),
          v ∈ (merge_freq ([1, 3] : List ℤ) ([10, 30] : List ℤ) [2] [20]).1
          ∧ (merge_freq ([1, 3] : List ℤ) ([10, 30] : List ℤ) [2] [20]).2.getD
              ((merge_freq ([1, 3] : List ℤ) ([10, 30] : List ℤ)
                [2] [20]).1.indexOf v) default
            = ([10, 30] : List ℤ).getD (([1, 3] : List ℤ).indexOf v) default) :=
  ⟨by decide, by decide, by decide,
   claim_C8_merge_invariants [1, 3] [10, 30] [2] [20] (by decide) (by decide)
     (by decide)⟩

end FreqSelect
